import Mathlib

/-!
Verification development for the Footfall-Counter repository.

The counting core lives in `src/footFallCounter.py`, class `FootfallCounter`:
  * `__init__` (lines 27–58) sets `roi_line_y = int(height * roi_position)`,
    `entry_count = 0`, `exit_count = 0`, `counted_ids = set()`,
    `track_history = defaultdict(lambda: [])`.
  * `process_frame` (lines 60–92), for each `(box, track_id)`:
      - `cx, cy = (x1 + x2) // 2, (y1 + y2) // 2`
      - `track.append((cx, cy)); if len(track) > 30: track.pop(0)`
      - if `len(track) >= 2 and track_id not in counted_ids`:
          `prev_cy, curr_cy = track[-2][1], track[-1][1]`
          `prev_cy < roi_line_y and curr_cy >= roi_line_y` → ENTRY
          `prev_cy > roi_line_y and curr_cy <= roi_line_y` → EXIT
The embedding below models exactly this per-observation state transition;
coordinates are integers because the source applies `map(int, box)` and `//`
before any position reaches the counting logic.
-/

/-- Direction of a crossing event, as printed by the source
(`crossing = 'ENTRY'` / `crossing = 'EXIT'`). -/
inductive Crossing where
  | ENTRY : Crossing
  | EXIT : Crossing
deriving DecidableEq

/-- State owned by `FootfallCounter`: the counting line, both counters, the
set of already-counted track ids, and the per-track position history
(`defaultdict(lambda: [])`, so unseen tracks map to the empty list). -/
structure CounterState where
  line_y : ℤ
  entry_count : ℕ
  exit_count : ℕ
  counted_ids : Finset ℕ
  track_history : ℕ → List (ℤ × ℤ)

/-- Python `int()` applied to a rational value: truncation toward zero. -/
def pyInt (q : ℚ) : ℤ := if 0 ≤ q then ⌊q⌋ else ⌈q⌉

/-- Construction, from `__init__`: `roi_line_y = int(height * roi_position)`,
zero counters, empty counted set, empty histories.  The source performs no
range validation on `roi_position` or the frame height. -/
def mkCounter (roi_position : ℚ) (frame_height : ℤ) : CounterState :=
  { line_y := pyInt ((frame_height : ℚ) * roi_position)
    entry_count := 0
    exit_count := 0
    counted_ids := ∅
    track_history := fun _ => [] }

/-- Error type for the construction-time `ConfigurationError` the spec
describes.  The source never raises it. -/
inductive ConfigError where
  | configurationError : ConfigError
deriving DecidableEq

/-- Construction viewed as a fallible operation on `(roi_position,
frame_height)`.  The source's `__init__` raises only for an unopenable video
stream (I/O, outside this core); as a function of `roi_position` and
`frame_height` it has no failure path, so the embedding always succeeds. -/
def mkCounterE (roi_position : ℚ) (frame_height : ℤ) :
    Except ConfigError CounterState :=
  Except.ok (mkCounter roi_position frame_height)

/-- History update, from `process_frame` lines 75–77:
`track.append((cx, cy)); if len(track) > 30: track.pop(0)`. -/
def pushHistory (track : List (ℤ × ℤ)) (p : ℤ × ℤ) : List (ℤ × ℤ) :=
  if 30 < (track ++ [p]).length then (track ++ [p]).drop 1 else track ++ [p]

/-- Crossing decision, from `process_frame` lines 80–92: guarded by
`len(track) >= 2 and track_id not in counted_ids`, it compares
`prev_cy = track[-2][1]` and `curr_cy = track[-1][1]` against the line. -/
def crossingOf (line : ℤ) (track : List (ℤ × ℤ)) (counted : Finset ℕ)
    (tid : ℕ) : Option Crossing :=
  if 2 ≤ track.length ∧ tid ∉ counted then
    match track.dropLast.getLast?, track.getLast? with
    | some pv, some cv =>
      if pv.2 < line ∧ cv.2 ≥ line then some Crossing.ENTRY
      else if pv.2 > line ∧ cv.2 ≤ line then some Crossing.EXIT
      else none
    | _, _ => none
  else none

/-- Effect of a crossing decision on the counters and the counted set, from
`process_frame` lines 83–91: the matching counter is incremented and the id
added to `counted_ids`; no decision leaves both untouched. -/
def applyCrossing (s : CounterState) (tid : ℕ) : Option Crossing → CounterState
  | some Crossing.ENTRY =>
      { s with entry_count := s.entry_count + 1
               counted_ids := insert tid s.counted_ids }
  | some Crossing.EXIT =>
      { s with exit_count := s.exit_count + 1
               counted_ids := insert tid s.counted_ids }
  | none => s

/-- One per-track observation step of `process_frame` (lines 74–92): append
the position to the track's history (with the 30-cap), then evaluate the
crossing rule and apply its effect, returning the new state and the emitted
event (the source's `crossing` local, `None` when no branch fires). -/
def observe (s : CounterState) (tid : ℕ) (p : ℤ × ℤ) :
    CounterState × Option Crossing :=
  let track := pushHistory (s.track_history tid) p
  let s1 := { s with track_history := Function.update s.track_history tid track }
  let ev := crossingOf s.line_y track s.counted_ids tid
  (applyCrossing s1 tid ev, ev)

/-- Run a sequence of observations in order, collecting the emitted events
tagged with their track id, as the per-frame loop of `process_frame` does
across frames. -/
def runTrace (s : CounterState) :
    List (ℕ × ℤ × ℤ) → CounterState × List (ℕ × Crossing)
  | [] => (s, [])
  | o :: rest =>
    let r := observe s o.1 o.2
    let rr := runTrace r.1 rest
    (rr.1, (match r.2 with
            | some ev => [(o.1, ev)]
            | none => []) ++ rr.2)

/-- Final state after a sequence of observations. -/
def observeSeq (s : CounterState) (obs : List (ℕ × ℤ × ℤ)) : CounterState :=
  (runTrace s obs).1

/-- Feed a list of positions for a single track, in order. -/
def feedTrack (s : CounterState) (tid : ℕ) (ps : List (ℤ × ℤ)) : CounterState :=
  observeSeq s (ps.map fun p => (tid, p))

/-- Center of a bounding box as the source computes it (`process_frame`
lines 71–72): `cx, cy = (x1 + x2) // 2, (y1 + y2) // 2`, Python floor
division on the `int`-converted coordinates. -/
def boxCenter (x1 y1 x2 y2 : ℤ) : ℤ × ℤ :=
  (Int.fdiv (x1 + x2) 2, Int.fdiv (y1 + y2) 2)

/-- Observation of a bounding box: the position handed to the crossing logic
is `boxCenter`, exactly as `process_frame` feeds `(cx, cy)` into the track
history. -/
def processBox (s : CounterState) (tid : ℕ) (x1 y1 x2 y2 : ℤ) :
    CounterState × Option Crossing :=
  observe s tid (boxCenter x1 y1 x2 y2)

/-- Modelled from the spec: the repository has no `reset()` operation (the
spec introduces it as "not present in the original but required for
testability").  Per the spec it clears History, the counted set, and both
counters to zero; the line is configuration and survives. -/
def reset (s : CounterState) : CounterState :=
  { s with entry_count := 0
           exit_count := 0
           counted_ids := ∅
           track_history := fun _ => [] }

/-- Summary of the counters, mirroring the source's final results printout in
`run()`: entries, exits, and `net_flow = entry_count - exit_count`. -/
def summary (s : CounterState) : ℕ × ℕ × ℤ :=
  (s.entry_count, s.exit_count, (s.entry_count : ℤ) - (s.exit_count : ℤ))

/-- Counter state with the line at `y = 50` and everything else fresh; equal
to `mkCounter (1/2) 100` (the default `roi_position = 0.5` on a 100-pixel
frame), as proved below. -/
def counter50 : CounterState :=
  { line_y := 50
    entry_count := 0
    exit_count := 0
    counted_ids := ∅
    track_history := fun _ => [] }

/-- Projection of the state onto what the crossing logic can read: the line,
both counters, the counted set, and the y-components of every track's
history.  The x-components are dropped. -/
def yView (s : CounterState) : ℤ × ℕ × ℕ × Finset ℕ × (ℕ → List ℤ) :=
  (s.line_y, s.entry_count, s.exit_count, s.counted_ids,
   fun t => (s.track_history t).map Prod.snd)

/-! ### Structural lemmas about one observation -/

theorem counter50_eq_mkCounter : counter50 = mkCounter (1 / 2) 100 := by
  have hl : pyInt (((100 : ℤ) : ℚ) * (1 / 2)) = 50 := by
    have h : ((100 : ℤ) : ℚ) * (1 / 2) = 50 := by norm_num
    rw [pyInt, h]
    norm_num
  unfold counter50 mkCounter
  rw [hl]

theorem observe_eq (s : CounterState) (tid : ℕ) (p : ℤ × ℤ) :
    observe s tid p =
      (applyCrossing
        { s with track_history := Function.update s.track_history tid (pushHistory (s.track_history tid) p) }
        tid
        (crossingOf s.line_y (pushHistory (s.track_history tid) p) s.counted_ids tid),
       crossingOf s.line_y (pushHistory (s.track_history tid) p) s.counted_ids tid) := rfl

theorem applyCrossing_line (s : CounterState) (tid : ℕ) (ev : Option Crossing) :
    (applyCrossing s tid ev).line_y = s.line_y := by
  cases ev with
  | none => rfl
  | some c => cases c <;> rfl

theorem applyCrossing_history (s : CounterState) (tid : ℕ)
    (ev : Option Crossing) :
    (applyCrossing s tid ev).track_history = s.track_history := by
  cases ev with
  | none => rfl
  | some c => cases c <;> rfl

theorem applyCrossing_entry (s : CounterState) (tid : ℕ) (ev : Option Crossing) :
    (applyCrossing s tid ev).entry_count =
      if ev = some Crossing.ENTRY then s.entry_count + 1 else s.entry_count := by
  cases ev with
  | none => rfl
  | some c => cases c <;> rfl

theorem applyCrossing_exit (s : CounterState) (tid : ℕ) (ev : Option Crossing) :
    (applyCrossing s tid ev).exit_count =
      if ev = some Crossing.EXIT then s.exit_count + 1 else s.exit_count := by
  cases ev with
  | none => rfl
  | some c => cases c <;> rfl

theorem applyCrossing_counted (s : CounterState) (tid : ℕ)
    (ev : Option Crossing) :
    (applyCrossing s tid ev).counted_ids =
      if ev = none then s.counted_ids else insert tid s.counted_ids := by
  cases ev with
  | none => rfl
  | some c => cases c <;> rfl

theorem crossingOf_of_mem (line : ℤ) (track : List (ℤ × ℤ)) (counted : Finset ℕ)
    (tid : ℕ) (hm : tid ∈ counted) :
    crossingOf line track counted tid = none := by
  unfold crossingOf
  rw [if_neg]
  intro hand
  exact hand.2 hm

theorem crossingOf_some_not_mem (line : ℤ) (track : List (ℤ × ℤ))
    (counted : Finset ℕ) (tid : ℕ) (ev : Crossing)
    (h : crossingOf line track counted tid = some ev) : tid ∉ counted := by
  intro hm
  rw [crossingOf_of_mem line track counted tid hm] at h
  exact Option.noConfusion h

theorem observe_line (s : CounterState) (tid : ℕ) (p : ℤ × ℤ) :
    (observe s tid p).1.line_y = s.line_y := by
  rw [observe_eq, applyCrossing_line]

theorem observe_history_self (s : CounterState) (tid : ℕ) (p : ℤ × ℤ) :
    (observe s tid p).1.track_history tid =
      pushHistory (s.track_history tid) p := by
  rw [observe_eq, applyCrossing_history]
  exact Function.update_same tid _ _

theorem observe_history_ne (s : CounterState) (tid t : ℕ) (p : ℤ × ℤ)
    (h : t ≠ tid) :
    (observe s tid p).1.track_history t = s.track_history t := by
  rw [observe_eq, applyCrossing_history]
  exact Function.update_noteq h _ _

theorem observe_entry (s : CounterState) (tid : ℕ) (p : ℤ × ℤ) :
    (observe s tid p).1.entry_count =
      if (observe s tid p).2 = some Crossing.ENTRY then s.entry_count + 1
      else s.entry_count := by
  rw [observe_eq, applyCrossing_entry]

theorem observe_exit (s : CounterState) (tid : ℕ) (p : ℤ × ℤ) :
    (observe s tid p).1.exit_count =
      if (observe s tid p).2 = some Crossing.EXIT then s.exit_count + 1
      else s.exit_count := by
  rw [observe_eq, applyCrossing_exit]

theorem observe_counted (s : CounterState) (tid : ℕ) (p : ℤ × ℤ) :
    (observe s tid p).1.counted_ids =
      if (observe s tid p).2 = none then s.counted_ids
      else insert tid s.counted_ids := by
  rw [observe_eq, applyCrossing_counted]

theorem observe_counted_mono (s : CounterState) (tid t : ℕ) (p : ℤ × ℤ)
    (h : t ∈ s.counted_ids) : t ∈ (observe s tid p).1.counted_ids := by
  rw [observe_counted]
  split
  · exact h
  · exact Finset.mem_insert_of_mem h

theorem observe_of_mem (s : CounterState) (tid : ℕ) (p : ℤ × ℤ)
    (h : tid ∈ s.counted_ids) : (observe s tid p).2 = none := by
  rw [observe_eq]
  exact crossingOf_of_mem _ _ _ _ h

theorem observe_some_not_mem (s : CounterState) (tid : ℕ) (p : ℤ × ℤ)
    (ev : Crossing) (h : (observe s tid p).2 = some ev) :
    tid ∉ s.counted_ids := by
  rw [observe_eq] at h
  exact crossingOf_some_not_mem _ _ _ _ _ h

theorem observe_some_mem_after (s : CounterState) (tid : ℕ) (p : ℤ × ℤ)
    (ev : Crossing) (h : (observe s tid p).2 = some ev) :
    tid ∈ (observe s tid p).1.counted_ids := by
  rw [observe_counted, h]
  simp

/-! ### Structural lemmas about the history buffer -/

theorem pushHistory_length (l : List (ℤ × ℤ)) (p : ℤ × ℤ) :
    (pushHistory l p).length =
      if 30 < l.length + 1 then l.length else l.length + 1 := by
  unfold pushHistory
  split
  · rename_i h
    simp only [List.length_append, List.length_cons, List.length_nil] at h ⊢
    rw [if_pos h, List.length_drop]
    simp
  · rename_i h
    simp only [List.length_append, List.length_cons, List.length_nil] at h ⊢
    rw [if_neg h]

theorem pushHistory_length_le (l : List (ℤ × ℤ)) (p : ℤ × ℤ)
    (h : l.length ≤ 30) : (pushHistory l p).length ≤ 30 := by
  rw [pushHistory_length]
  split <;> omega

theorem pushHistory_length_ge_two (l : List (ℤ × ℤ)) (p : ℤ × ℤ)
    (h : l ≠ []) : 2 ≤ (pushHistory l p).length := by
  have hl : 1 ≤ l.length := List.length_pos.mpr h
  rw [pushHistory_length]
  split <;> omega

theorem pushHistory_getLast? (l : List (ℤ × ℤ)) (p : ℤ × ℤ) :
    (pushHistory l p).getLast? = some p := by
  unfold pushHistory
  split
  · rename_i hlen
    cases l with
    | nil => simp at hlen
    | cons a l' =>
      rw [List.cons_append, List.drop_succ_cons, List.drop_zero]
      exact List.getLast?_concat l'
  · exact List.getLast?_concat l

theorem pushHistory_dropLast_getLast? (l : List (ℤ × ℤ)) (p : ℤ × ℤ)
    (h : l ≠ []) :
    (pushHistory l p).dropLast.getLast? = l.getLast? := by
  unfold pushHistory
  split
  · rename_i hlen
    cases l with
    | nil => simp at hlen
    | cons a l' =>
      rw [List.cons_append, List.drop_succ_cons, List.drop_zero,
        List.dropLast_concat]
      cases l' with
      | nil => simp at hlen
      | cons b l'' => exact (List.getLast?_cons_cons).symm
  · rw [List.dropLast_concat]

/-! ### The crossing decision on a freshly pushed track -/

theorem crossingOf_push (line : ℤ) (l : List (ℤ × ℤ)) (p q : ℤ × ℤ)
    (counted : Finset ℕ) (tid : ℕ)
    (hlast : l.getLast? = some q) (hmem : tid ∉ counted) :
    crossingOf line (pushHistory l p) counted tid =
      (if q.2 < line ∧ p.2 ≥ line then some Crossing.ENTRY
       else if q.2 > line ∧ p.2 ≤ line then some Crossing.EXIT
       else none) := by
  have hne : l ≠ [] := by
    intro h
    rw [h] at hlast
    simp at hlast
  have h2 := pushHistory_length_ge_two l p hne
  have hprev := pushHistory_dropLast_getLast? l p hne
  have hcurr := pushHistory_getLast? l p
  unfold crossingOf
  rw [if_pos ⟨h2, hmem⟩, hprev, hlast, hcurr]

/-! ### Sequencing lemmas -/

theorem runTrace_cons (s : CounterState) (o : ℕ × ℤ × ℤ)
    (obs : List (ℕ × ℤ × ℤ)) :
    runTrace s (o :: obs) =
      ((runTrace (observe s o.1 o.2).1 obs).1,
       (match (observe s o.1 o.2).2 with
        | some ev => [(o.1, ev)]
        | none => []) ++ (runTrace (observe s o.1 o.2).1 obs).2) := rfl

theorem observeSeq_cons (s : CounterState) (o : ℕ × ℤ × ℤ)
    (obs : List (ℕ × ℤ × ℤ)) :
    observeSeq s (o :: obs) = observeSeq (observe s o.1 o.2).1 obs := rfl

theorem feedTrack_cons (s : CounterState) (tid : ℕ) (p : ℤ × ℤ)
    (ps : List (ℤ × ℤ)) :
    feedTrack s tid (p :: ps) = feedTrack (observe s tid p).1 tid ps := rfl

theorem counted_runTrace_mono (obs : List (ℕ × ℤ × ℤ)) :
    ∀ (s : CounterState) (t : ℕ), t ∈ s.counted_ids →
      t ∈ (runTrace s obs).1.counted_ids := by
  induction obs with
  | nil => intro s t h; exact h
  | cons o obs ih =>
    intro s t h
    rw [runTrace_cons]
    exact ih _ t (observe_counted_mono s o.1 t o.2 h)

theorem runTrace_no_event_of_mem (obs : List (ℕ × ℤ × ℤ)) :
    ∀ (s : CounterState) (tid : ℕ), tid ∈ s.counted_ids →
      (runTrace s obs).2.filter (fun e => e.1 == tid) = [] := by
  induction obs with
  | nil => intro s tid _; rfl
  | cons o obs ih =>
    intro s tid h
    rw [runTrace_cons]
    simp only [List.filter_append]
    rw [ih _ tid (observe_counted_mono s o.1 tid o.2 h), List.append_nil]
    by_cases ho : o.1 = tid
    · rw [ho] at *
      rw [observe_of_mem s tid o.2 h]
      rfl
    · cases hev : (observe s o.1 o.2).2 with
      | none => rfl
      | some ev =>
        simp only [List.filter_cons, List.filter_nil]
        rw [if_neg]
        simp only [beq_iff_eq]
        exact ho

theorem feedTrack_counters_of_mem (ps : List (ℤ × ℤ)) :
    ∀ (s : CounterState) (tid : ℕ), tid ∈ s.counted_ids →
      (feedTrack s tid ps).entry_count = s.entry_count ∧
      (feedTrack s tid ps).exit_count = s.exit_count := by
  induction ps with
  | nil => intro s tid _; exact ⟨rfl, rfl⟩
  | cons p ps ih =>
    intro s tid h
    rw [feedTrack_cons]
    have hev : (observe s tid p).2 = none := observe_of_mem s tid p h
    have hmem : tid ∈ (observe s tid p).1.counted_ids :=
      observe_counted_mono s tid tid p h
    have he : (observe s tid p).1.entry_count = s.entry_count := by
      rw [observe_entry, hev]
      simp
    have hx : (observe s tid p).1.exit_count = s.exit_count := by
      rw [observe_exit, hev]
      simp
    rcases ih (observe s tid p).1 tid hmem with ⟨ih1, ih2⟩
    exact ⟨ih1.trans he, ih2.trans hx⟩

/-! ### Counter/counted-set accounting -/

theorem observe_card_step (s : CounterState) (tid : ℕ) (p : ℤ × ℤ)
    (h : s.entry_count + s.exit_count = s.counted_ids.card) :
    (observe s tid p).1.entry_count + (observe s tid p).1.exit_count =
      (observe s tid p).1.counted_ids.card := by
  cases hev : (observe s tid p).2 with
  | none =>
    rw [observe_entry, observe_exit, observe_counted, hev]
    simpa using h
  | some c =>
    have hnm : tid ∉ s.counted_ids := observe_some_not_mem s tid p c hev
    rw [observe_entry, observe_exit, observe_counted, hev]
    cases c <;> simp [Finset.card_insert_of_not_mem hnm] <;> omega

theorem observeSeq_card (obs : List (ℕ × ℤ × ℤ)) :
    ∀ s : CounterState,
      s.entry_count + s.exit_count = s.counted_ids.card →
      (observeSeq s obs).entry_count + (observeSeq s obs).exit_count =
        (observeSeq s obs).counted_ids.card := by
  induction obs with
  | nil => intro s h; exact h
  | cons o obs ih =>
    intro s h
    rw [observeSeq_cons]
    exact ih _ (observe_card_step s o.1 o.2 h)

/-! ### The history buffer is a 30-capacity FIFO -/

theorem foldl_pushHistory (ps : List (ℤ × ℤ)) :
    ∀ l : List (ℤ × ℤ), l.length ≤ 30 →
      List.foldl pushHistory l ps = (l ++ ps).drop ((l ++ ps).length - 30) := by
  induction ps with
  | nil =>
    intro l h
    simp [Nat.sub_eq_zero_of_le h]
  | cons p ps ih =>
    intro l h
    rw [List.foldl_cons, ih (pushHistory l p) (pushHistory_length_le l p h)]
    by_cases hc : 30 < l.length + 1
    · have hp : pushHistory l p = (l ++ [p]).drop 1 := by
        unfold pushHistory
        split
        · rfl
        · rename_i hx
          exfalso
          apply hx
          simpa using hc
      rw [hp]
      have h1 : ((l ++ [p]) ++ ps).drop 1 = (l ++ [p]).drop 1 ++ ps :=
        List.drop_append_of_le_length (by simp)
      rw [← h1, List.drop_drop]
      have h2 : l ++ p :: ps = (l ++ [p]) ++ ps := by simp
      rw [h2]
      congr 1
      simp only [List.length_drop, List.length_append, List.length_cons,
        List.length_nil]
      omega
    · have hp : pushHistory l p = l ++ [p] := by
        unfold pushHistory
        split
        · rename_i hx
          exfalso
          apply hc
          simpa using hx
        · rfl
      rw [hp]
      have h2 : l ++ p :: ps = (l ++ [p]) ++ ps := by simp
      rw [h2]

theorem feedTrack_history (ps : List (ℤ × ℤ)) :
    ∀ (s : CounterState) (tid : ℕ),
      (feedTrack s tid ps).track_history tid =
        List.foldl pushHistory (s.track_history tid) ps := by
  induction ps with
  | nil => intro s tid; rfl
  | cons p ps ih =>
    intro s tid
    rw [feedTrack_cons, ih, observe_history_self, List.foldl_cons]

/-! ### The crossing logic reads only y-components -/

theorem pushHistory_map_snd (l1 l2 : List (ℤ × ℤ)) (p1 p2 : ℤ × ℤ)
    (hl : l1.map Prod.snd = l2.map Prod.snd) (hp : p1.2 = p2.2) :
    (pushHistory l1 p1).map Prod.snd = (pushHistory l2 p2).map Prod.snd := by
  have key : (l1 ++ [p1]).map Prod.snd = (l2 ++ [p2]).map Prod.snd := by
    simp [hl, hp]
  have hlen : (l1 ++ [p1]).length = (l2 ++ [p2]).length := by
    simpa using congrArg List.length key
  unfold pushHistory
  rw [hlen]
  split
  · rw [List.map_drop, List.map_drop, key]
  · exact key

theorem crossingOf_congr (line : ℤ) (t1 t2 : List (ℤ × ℤ))
    (counted : Finset ℕ) (tid : ℕ)
    (h : t1.map Prod.snd = t2.map Prod.snd) :
    crossingOf line t1 counted tid = crossingOf line t2 counted tid := by
  have hlen : t1.length = t2.length := by
    simpa using congrArg List.length h
  have hprev : t1.dropLast.getLast?.map Prod.snd =
      t2.dropLast.getLast?.map Prod.snd := by
    rw [← List.getLast?_map, ← List.getLast?_map, List.map_dropLast,
      List.map_dropLast, h]
  have hcurr : t1.getLast?.map Prod.snd = t2.getLast?.map Prod.snd := by
    rw [← List.getLast?_map, ← List.getLast?_map, h]
  unfold crossingOf
  rw [hlen]
  split
  · rcases h1 : t1.dropLast.getLast? with _ | pv1
    · rw [h1] at hprev
      have h2 : t2.dropLast.getLast? = none := by
        symm at hprev
        simpa using hprev
      rw [h2]
    · rw [h1] at hprev
      rcases h2 : t2.dropLast.getLast? with _ | pv2
      · rw [h2] at hprev
        simp at hprev
      · rw [h2] at hprev
        simp only [Option.map_some', Option.some.injEq] at hprev
        rcases h3 : t1.getLast? with _ | cv1
        · rw [h3] at hcurr
          have h4 : t2.getLast? = none := by
            symm at hcurr
            simpa using hcurr
          rw [h4]
        · rw [h3] at hcurr
          rcases h4 : t2.getLast? with _ | cv2
          · rw [h4] at hcurr
            simp at hcurr
          · rw [h4] at hcurr
            simp only [Option.map_some', Option.some.injEq] at hcurr
            simp [hprev, hcurr]
  · rfl

theorem observe_yView_congr (s1 s2 : CounterState) (tid : ℕ) (p1 p2 : ℤ × ℤ)
    (hv : yView s1 = yView s2) (hp : p1.2 = p2.2) :
    (observe s1 tid p1).2 = (observe s2 tid p2).2 ∧
    yView (observe s1 tid p1).1 = yView (observe s2 tid p2).1 := by
  have hline : s1.line_y = s2.line_y := congrArg (fun v => v.1) hv
  have hentry : s1.entry_count = s2.entry_count := congrArg (fun v => v.2.1) hv
  have hexit : s1.exit_count = s2.exit_count := congrArg (fun v => v.2.2.1) hv
  have hcnt : s1.counted_ids = s2.counted_ids := congrArg (fun v => v.2.2.2.1) hv
  have hhist : ∀ t, (s1.track_history t).map Prod.snd =
      (s2.track_history t).map Prod.snd := by
    intro t
    exact congrFun (congrArg (fun v => v.2.2.2.2) hv) t
  have hpush : (pushHistory (s1.track_history tid) p1).map Prod.snd =
      (pushHistory (s2.track_history tid) p2).map Prod.snd :=
    pushHistory_map_snd _ _ _ _ (hhist tid) hp
  have hev : (observe s1 tid p1).2 = (observe s2 tid p2).2 := by
    rw [observe_eq, observe_eq, hline, hcnt]
    exact crossingOf_congr _ _ _ _ _ hpush
  refine ⟨hev, ?_⟩
  have h1 : (observe s1 tid p1).1.line_y = (observe s2 tid p2).1.line_y := by
    rw [observe_line, observe_line, hline]
  have h2 : (observe s1 tid p1).1.entry_count =
      (observe s2 tid p2).1.entry_count := by
    rw [observe_entry, observe_entry, hev, hentry]
  have h3 : (observe s1 tid p1).1.exit_count =
      (observe s2 tid p2).1.exit_count := by
    rw [observe_exit, observe_exit, hev, hexit]
  have h4 : (observe s1 tid p1).1.counted_ids =
      (observe s2 tid p2).1.counted_ids := by
    rw [observe_counted, observe_counted, hev, hcnt]
  have h5 : ∀ t, ((observe s1 tid p1).1.track_history t).map Prod.snd =
      ((observe s2 tid p2).1.track_history t).map Prod.snd := by
    intro t
    by_cases ht : t = tid
    · subst ht
      rw [observe_history_self, observe_history_self]
      exact hpush
    · rw [observe_history_ne _ _ _ _ ht, observe_history_ne _ _ _ _ ht]
      exact hhist t
  simp only [yView, Prod.mk.injEq]
  exact ⟨h1, h2, h3, h4, funext h5⟩

theorem runTrace_yView_congr (obs1 : List (ℕ × ℤ × ℤ)) :
    ∀ (obs2 : List (ℕ × ℤ × ℤ)) (s1 s2 : CounterState),
      yView s1 = yView s2 →
      obs1.map (fun o => (o.1, o.2.2)) = obs2.map (fun o => (o.1, o.2.2)) →
      (runTrace s1 obs1).2 = (runTrace s2 obs2).2 ∧
      yView (runTrace s1 obs1).1 = yView (runTrace s2 obs2).1 := by
  induction obs1 with
  | nil =>
    intro obs2 s1 s2 hv h
    cases obs2 with
    | nil => exact ⟨rfl, hv⟩
    | cons o r => simp at h
  | cons o1 r1 ih =>
    intro obs2 s1 s2 hv h
    cases obs2 with
    | nil => simp at h
    | cons o2 r2 =>
      simp only [List.map_cons, List.cons.injEq] at h
      obtain ⟨hid_y, hrest⟩ := h
      obtain ⟨hid, hy⟩ := Prod.mk.inj hid_y
      obtain ⟨hev, hv'⟩ := observe_yView_congr s1 s2 o1.1 o1.2 o2.2 hv hy
      have hev2 : (observe s1 o1.1 o1.2).2 = (observe s2 o2.1 o2.2).2 := by
        rw [← hid]
        exact hev
      have hv2 : yView (observe s1 o1.1 o1.2).1 =
          yView (observe s2 o2.1 o2.2).1 := by
        rw [← hid]
        exact hv'
      obtain ⟨ihev, ihv⟩ :=
        ih r2 (observe s1 o1.1 o1.2).1 (observe s2 o2.1 o2.2).1 hv2 hrest
      rw [runTrace_cons, runTrace_cons]
      exact ⟨by rw [ihev, hev2, hid], ihv⟩

/-! ### Remaining helper lemmas -/

theorem crossingOf_short (line : ℤ) (track : List (ℤ × ℤ))
    (counted : Finset ℕ) (tid : ℕ) (h : track.length < 2) :
    crossingOf line track counted tid = none := by
  unfold crossingOf
  rw [if_neg]
  rintro ⟨h2, _⟩
  omega

theorem runTrace_cons2 (s : CounterState) (i : ℕ) (x y : ℤ)
    (obs : List (ℕ × ℤ × ℤ)) :
    runTrace s ((i, x, y) :: obs) =
      ((runTrace (observe s i (x, y)).1 obs).1,
       (match (observe s i (x, y)).2 with
        | some ev => [(i, ev)]
        | none => []) ++ (runTrace (observe s i (x, y)).1 obs).2) := rfl

theorem observeSeq_counters_mono (obs : List (ℕ × ℤ × ℤ)) :
    ∀ s : CounterState,
      s.entry_count ≤ (observeSeq s obs).entry_count ∧
      s.exit_count ≤ (observeSeq s obs).exit_count := by
  induction obs with
  | nil => intro s; exact ⟨le_refl _, le_refl _⟩
  | cons o obs ih =>
    intro s
    rw [observeSeq_cons]
    rcases ih (observe s o.1 o.2).1 with ⟨ih1, ih2⟩
    constructor
    · refine le_trans ?_ ih1
      rw [observe_entry]
      split <;> omega
    · refine le_trans ?_ ih2
      rw [observe_exit]
      split <;> omega

/-! ### Claims -/

/-- Claim C7: `entry_count` and `exit_count` are monotonically non-decreasing:
over one observation each counter stays equal or rises by exactly 1, rising
exactly when the crossing rule fires with the matching direction, and both
are non-decreasing over any observation sequence. -/
theorem counters_monotone (s : CounterState) (tid : ℕ) (p : ℤ × ℤ) :
    ((observe s tid p).1.entry_count =
      if (observe s tid p).2 = some Crossing.ENTRY then s.entry_count + 1
      else s.entry_count) ∧
    ((observe s tid p).1.exit_count =
      if (observe s tid p).2 = some Crossing.EXIT then s.exit_count + 1
      else s.exit_count) ∧
    s.entry_count ≤ (observe s tid p).1.entry_count ∧
    s.exit_count ≤ (observe s tid p).1.exit_count ∧
    ∀ obs : List (ℕ × ℤ × ℤ),
      s.entry_count ≤ (observeSeq s obs).entry_count ∧
      s.exit_count ≤ (observeSeq s obs).exit_count := by
  refine ⟨observe_entry s tid p, observe_exit s tid p, ?_, ?_,
    fun obs => observeSeq_counters_mono obs s⟩
  · rw [observe_entry]
    split <;> omega
  · rw [observe_exit]
    split <;> omega

/-- Claim C9: in every state reachable from construction by a sequence of
observations, `entry_count + exit_count` equals the number of identifiers in
the counted set. -/
theorem entry_exit_card_invariant (roi_position : ℚ) (frame_height : ℤ)
    (obs : List (ℕ × ℤ × ℤ)) :
    (observeSeq (mkCounter roi_position frame_height) obs).entry_count +
      (observeSeq (mkCounter roi_position frame_height) obs).exit_count =
      (observeSeq (mkCounter roi_position frame_height) obs).counted_ids.card :=
  observeSeq_card obs (mkCounter roi_position frame_height) (by simp [mkCounter])

/-- Claim C4, counterexample: the source performs no construction-time
validation, so constructing with `roi_position = 2 ∉ [0,1]` or with
`frame_height = -5 ≤ 0` does not raise `ConfigurationError` — construction
succeeds, contradicting the claim. -/
theorem construction_unvalidated_cx :
    (1 : ℚ) < 2 ∧
    mkCounterE 2 100 ≠ Except.error ConfigError.configurationError ∧
    (-5 : ℤ) ≤ 0 ∧
    mkCounterE (1 / 2) (-5) ≠ Except.error ConfigError.configurationError := by
  refine ⟨by norm_num, ?_, by norm_num, ?_⟩ <;> simp [mkCounterE]

/-- Claim C4 as amended: construction never fails, for any `roi_position`
and `frame_height` whatsoever; it returns the fully initialized state with
`line_y = int(frame_height * roi_position)`, zero counters, empty counted
set and empty histories.  (The spec's `ConfigurationError` does not exist in
the source.) -/
theorem construction_total (roi_position : ℚ) (frame_height : ℤ) :
    mkCounterE roi_position frame_height =
      Except.ok (mkCounter roi_position frame_height) ∧
    (mkCounter roi_position frame_height).line_y =
      pyInt ((frame_height : ℚ) * roi_position) ∧
    (mkCounter roi_position frame_height).entry_count = 0 ∧
    (mkCounter roi_position frame_height).exit_count = 0 ∧
    (mkCounter roi_position frame_height).counted_ids = ∅ ∧
    ∀ t, (mkCounter roi_position frame_height).track_history t = [] :=
  ⟨rfl, rfl, rfl, rfl, rfl, fun _ => rfl⟩

/-- Claim C8, counterexample: for the box `(0, 0, 3, 3)` the source computes
the center with integer floor division, giving `(1, 1)`, while the exact
geometric center is `(3/2, 3/2)`; the position fed to the crossing logic is
not the geometric center. -/
theorem boxCenter_not_geometric_cx :
    ((boxCenter 0 0 3 3).1 : ℚ) ≠ ((0 : ℚ) + 3) / 2 ∧
    ((boxCenter 0 0 3 3).2 : ℚ) ≠ ((0 : ℚ) + 3) / 2 := by
  have hb : boxCenter 0 0 3 3 = (1, 1) := by decide
  rw [hb]
  norm_num

/-- Claim C8 as amended: the position fed to the crossing logic for a
bounding box `(x1, y1, x2, y2)` is the geometric center rounded down to
integer pixels, `(⌊(x1+x2)/2⌋, ⌊(y1+y2)/2⌋)` — Python floor division, not
the exact rational center. -/
theorem processBox_floor_center (s : CounterState) (tid : ℕ)
    (x1 y1 x2 y2 : ℤ) :
    processBox s tid x1 y1 x2 y2 =
      observe s tid
        (⌊((x1 : ℚ) + (x2 : ℚ)) / 2⌋, ⌊((y1 : ℚ) + (y2 : ℚ)) / 2⌋) ∧
    (boxCenter x1 y1 x2 y2).1 = ⌊((x1 : ℚ) + (x2 : ℚ)) / 2⌋ ∧
    (boxCenter x1 y1 x2 y2).2 = ⌊((y1 : ℚ) + (y2 : ℚ)) / 2⌋ := by
  have key : ∀ a : ℤ, Int.fdiv a 2 = ⌊((a : ℚ)) / 2⌋ := by
    intro a
    rw [Int.fdiv_eq_ediv a (by norm_num)]
    have h := Rat.floor_intCast_div_natCast a 2
    simp only [Nat.cast_ofNat] at h
    exact h.symm
  have h1 : (boxCenter x1 y1 x2 y2).1 = ⌊((x1 : ℚ) + (x2 : ℚ)) / 2⌋ := by
    show Int.fdiv (x1 + x2) 2 = _
    rw [key (x1 + x2)]
    have hc : (((x1 + x2 : ℤ)) : ℚ) = (x1 : ℚ) + (x2 : ℚ) := by push_cast; ring
    rw [hc]
  have h2 : (boxCenter x1 y1 x2 y2).2 = ⌊((y1 : ℚ) + (y2 : ℚ)) / 2⌋ := by
    show Int.fdiv (y1 + y2) 2 = _
    rw [key (y1 + y2)]
    have hc : (((y1 + y2 : ℤ)) : ℚ) = (y1 : ℚ) + (y2 : ℚ) := by push_cast; ring
    rw [hc]
  have hpair : boxCenter x1 y1 x2 y2 =
      (⌊((x1 : ℚ) + (x2 : ℚ)) / 2⌋, ⌊((y1 : ℚ) + (y2 : ℚ)) / 2⌋) :=
    Prod.ext h1 h2
  exact ⟨congrArg (observe s tid) hpair, h1, h2⟩

/-- Claim C1: for an uncounted track whose history (after the new position is
appended) has at least two entries, `prev_y < line_y ≤ curr_y` emits ENTRY
and increments `entry_count` by one, and `prev_y > line_y ≥ curr_y` emits
EXIT and increments `exit_count` by one; in particular y = [10, 60] against
line 50 yields one ENTRY with counts (1, 0) and y = [60, 10] yields one EXIT
with counts (0, 1). -/
theorem observe_crossing_rule (s : CounterState) (tid : ℕ) (p q : ℤ × ℤ)
    (hlast : (s.track_history tid).getLast? = some q)
    (hmem : tid ∉ s.counted_ids) :
    (q.2 < s.line_y ∧ p.2 ≥ s.line_y →
      (observe s tid p).2 = some Crossing.ENTRY ∧
      (observe s tid p).1.entry_count = s.entry_count + 1 ∧
      (observe s tid p).1.exit_count = s.exit_count) ∧
    (q.2 > s.line_y ∧ p.2 ≤ s.line_y →
      (observe s tid p).2 = some Crossing.EXIT ∧
      (observe s tid p).1.exit_count = s.exit_count + 1 ∧
      (observe s tid p).1.entry_count = s.entry_count) ∧
    (runTrace counter50 [(1, (0, 10)), (1, (0, 60))]).2 =
      [(1, Crossing.ENTRY)] ∧
    summary (observeSeq counter50 [(1, (0, 10)), (1, (0, 60))]) = (1, 0, 1) ∧
    (runTrace counter50 [(1, (0, 60)), (1, (0, 10))]).2 =
      [(1, Crossing.EXIT)] ∧
    summary (observeSeq counter50 [(1, (0, 60)), (1, (0, 10))]) = (0, 1, -1) := by
  have hcr : (observe s tid p).2 =
      (if q.2 < s.line_y ∧ p.2 ≥ s.line_y then some Crossing.ENTRY
       else if q.2 > s.line_y ∧ p.2 ≤ s.line_y then some Crossing.EXIT
       else none) := by
    rw [observe_eq]
    exact crossingOf_push s.line_y (s.track_history tid) p q s.counted_ids tid
      hlast hmem
  refine ⟨?_, ?_, by decide, by decide, by decide, by decide⟩
  · intro hcond
    have he : (observe s tid p).2 = some Crossing.ENTRY := by
      rw [hcr, if_pos hcond]
    refine ⟨he, ?_, ?_⟩
    · rw [observe_entry, he]
      simp
    · rw [observe_exit, he]
      simp
  · intro hcond
    have hne : ¬(q.2 < s.line_y ∧ p.2 ≥ s.line_y) := by
      rintro ⟨hlt, _⟩
      rcases hcond with ⟨hgt, _⟩
      omega
    have he : (observe s tid p).2 = some Crossing.EXIT := by
      rw [hcr, if_neg hne, if_pos hcond]
    refine ⟨he, ?_, ?_⟩
    · rw [observe_exit, he]
      simp
    · rw [observe_entry, he]
      simp

/-- Witness for C1: after observing y = 10 for track 1, observing y = 60
against the line at 50 emits ENTRY and bumps `entry_count` from 0 to 1. -/
theorem observe_crossing_rule_witness :
    (observe (observe counter50 1 (0, 10)).1 1 (0, 60)).2 =
      some Crossing.ENTRY ∧
    (observe (observe counter50 1 (0, 10)).1 1 (0, 60)).1.entry_count =
      (observe counter50 1 (0, 10)).1.entry_count + 1 ∧
    (observe (observe counter50 1 (0, 10)).1 1 (0, 60)).1.exit_count =
      (observe counter50 1 (0, 10)).1.exit_count :=
  (observe_crossing_rule (observe counter50 1 (0, 10)).1 1 (0, 60) (0, 10)
    (by decide) (by decide)).1 (by decide)

/-- Claim C2: once an observation of a track emits an event, the id is in
the counted set, so no later observation sequence produces any further event
for that id, and further observations of that id never change either
counter. -/
theorem at_most_one_event_per_track (s : CounterState) (tid : ℕ) (p : ℤ × ℤ)
    (ev : Crossing) (hev : (observe s tid p).2 = some ev) :
    (∀ obs : List (ℕ × ℤ × ℤ),
      (runTrace (observe s tid p).1 obs).2.filter (fun e => e.1 == tid) = []) ∧
    (∀ ps : List (ℤ × ℤ),
      (feedTrack (observe s tid p).1 tid ps).entry_count =
        (observe s tid p).1.entry_count ∧
      (feedTrack (observe s tid p).1 tid ps).exit_count =
        (observe s tid p).1.exit_count) := by
  have hmem : tid ∈ (observe s tid p).1.counted_ids :=
    observe_some_mem_after s tid p ev hev
  exact ⟨fun obs => runTrace_no_event_of_mem obs _ tid hmem,
         fun ps => feedTrack_counters_of_mem ps _ tid hmem⟩

/-- Witness for C2: track 1 crosses down (ENTRY) and then crosses the line
twice more (up and down again); no further event for id 1 is emitted and the
counters stay put. -/
theorem at_most_one_event_per_track_witness :
    (runTrace (observe (observe counter50 1 (0, 10)).1 1 (0, 60)).1
      [(1, (0, 5)), (1, (0, 60)), (1, (0, 5))]).2.filter
        (fun e => e.1 == 1) = [] ∧
    (feedTrack (observe (observe counter50 1 (0, 10)).1 1 (0, 60)).1 1
      [(0, 5), (0, 60)]).entry_count =
      (observe (observe counter50 1 (0, 10)).1 1 (0, 60)).1.entry_count := by
  have h := at_most_one_event_per_track (observe counter50 1 (0, 10)).1 1
    (0, 60) Crossing.ENTRY (by decide)
  exact ⟨h.1 [(1, (0, 5)), (1, (0, 60)), (1, (0, 5))],
         (h.2 [(0, 5), (0, 60)]).1⟩

/-- Claim C3: the per-track history is a FIFO buffer of capacity 30 —
feeding any list of positions for a track whose history starts empty leaves
exactly the most recent 30 (all of them when fewer), in arrival order, and
the length never exceeds 30. -/
theorem history_fifo_cap30 (s : CounterState) (tid : ℕ) (ps : List (ℤ × ℤ))
    (h0 : s.track_history tid = []) :
    (feedTrack s tid ps).track_history tid = ps.drop (ps.length - 30) ∧
    ((feedTrack s tid ps).track_history tid).length ≤ 30 := by
  have h := feedTrack_history ps s tid
  rw [h0] at h
  constructor
  · rw [h, foldl_pushHistory ps [] (by simp)]
    simp
  · rw [h, foldl_pushHistory ps [] (by simp)]
    simp only [List.nil_append, List.length_drop]
    omega

/-- Witness for C3: feeding 40 sequential positions for track 1 leaves
exactly the last 30 of them in the history, and no more than 30 entries. -/
theorem history_fifo_cap30_witness :
    (feedTrack counter50 1
        ((List.range 40).map fun i => ((0 : ℤ), (i : ℤ)))).track_history 1 =
      ((List.range 40).map fun i => ((0 : ℤ), (i : ℤ))).drop
        (((List.range 40).map fun i => ((0 : ℤ), (i : ℤ))).length - 30) ∧
    ((feedTrack counter50 1
        ((List.range 40).map fun i => ((0 : ℤ), (i : ℤ)))).track_history
        1).length ≤ 30 :=
  history_fifo_cap30 counter50 1
    ((List.range 40).map fun i => ((0 : ℤ), (i : ℤ))) rfl

/-- Claim C6: when the previous and the current y-value of an uncounted
track both equal `line_y` exactly, neither branch fires — no event, both
counters unchanged; in particular y = [50, 50] against line 50 produces no
event and counts (0, 0). -/
theorem boundary_line_no_event (s : CounterState) (tid : ℕ) (p q : ℤ × ℤ)
    (hlast : (s.track_history tid).getLast? = some q)
    (hmem : tid ∉ s.counted_ids)
    (hq : q.2 = s.line_y) (hp : p.2 = s.line_y) :
    (observe s tid p).2 = none ∧
    (observe s tid p).1.entry_count = s.entry_count ∧
    (observe s tid p).1.exit_count = s.exit_count ∧
    (runTrace counter50 [(1, (0, 50)), (1, (0, 50))]).2 = [] ∧
    summary (observeSeq counter50 [(1, (0, 50)), (1, (0, 50))]) =
      (0, 0, 0) := by
  have h1 : ¬(q.2 < s.line_y ∧ p.2 ≥ s.line_y) := by
    rintro ⟨hlt, _⟩
    omega
  have h2 : ¬(q.2 > s.line_y ∧ p.2 ≤ s.line_y) := by
    rintro ⟨hgt, _⟩
    omega
  have hev : (observe s tid p).2 = none := by
    rw [observe_eq]
    rw [crossingOf_push s.line_y (s.track_history tid) p q s.counted_ids tid
      hlast hmem, if_neg h1, if_neg h2]
  refine ⟨hev, ?_, ?_, by decide, by decide⟩
  · rw [observe_entry, hev]
    simp
  · rw [observe_exit, hev]
    simp

/-- Witness for C6: with the line at 50, the position sequence y = [50, 50]
for track 1 emits nothing and leaves `entry_count` at 0. -/
theorem boundary_line_no_event_witness :
    (observe (observe counter50 1 (0, 50)).1 1 (0, 50)).2 = none ∧
    (observe (observe counter50 1 (0, 50)).1 1 (0, 50)).1.entry_count =
      (observe counter50 1 (0, 50)).1.entry_count := by
  have h := boundary_line_no_event (observe counter50 1 (0, 50)).1 1
    (0, 50) (0, 50) (by decide) (by decide) (by decide) (by decide)
  exact ⟨h.1, h.2.1⟩

/-- Claim C5: `reset()` (modelled from the spec — the source has no such
operation) clears every history, empties the counted set and zeroes both
counters, so `summary` returns (0, 0, 0), and a track id counted before the
reset can trigger a new crossing event afterwards. -/
theorem reset_restores_initial (s : CounterState) (tid : ℕ)
    (hc : tid ∈ s.counted_ids) (hl : s.line_y = 50) :
    summary (reset s) = (0, 0, 0) ∧
    (reset s).counted_ids = ∅ ∧
    (∀ t, (reset s).track_history t = []) ∧
    (runTrace (reset s) [(tid, (0, 10)), (tid, (0, 60))]).2 =
      [(tid, Crossing.ENTRY)] := by
  refine ⟨rfl, rfl, fun _ => rfl, ?_⟩
  have e1 : (observe (reset s) tid (0, 10)).2 = none := by
    rw [observe_eq]
    exact crossingOf_short (reset s).line_y
      (pushHistory ((reset s).track_history tid) (0, 10))
      (reset s).counted_ids tid (by simp [reset, pushHistory])
  have hist1 : (observe (reset s) tid (0, 10)).1.track_history tid =
      [(0, 10)] := by
    rw [observe_history_self]
    rfl
  have hcnt1 : (observe (reset s) tid (0, 10)).1.counted_ids = ∅ := by
    rw [observe_counted, e1]
    simp [reset]
  have hline1 : (observe (reset s) tid (0, 10)).1.line_y = 50 := by
    rw [observe_line]
    exact hl
  have e2 : (observe (observe (reset s) tid (0, 10)).1 tid (0, 60)).2 =
      some Crossing.ENTRY := by
    rw [observe_eq]
    show crossingOf (observe (reset s) tid (0, 10)).1.line_y
      (pushHistory ((observe (reset s) tid (0, 10)).1.track_history tid)
        (0, 60))
      (observe (reset s) tid (0, 10)).1.counted_ids tid = some Crossing.ENTRY
    rw [hist1, hline1, hcnt1,
      crossingOf_push 50 [(0, 10)] (0, 60) (0, 10) ∅ tid rfl (by simp)]
    decide
  rw [runTrace_cons2, runTrace_cons2, e1, e2]
  simp [runTrace]

/-- Witness for C5: after a run that counted track 1 (entry_count = 1),
`reset` yields summary (0, 0, 0), and the same id 1 crosses again and emits
a fresh ENTRY. -/
theorem reset_restores_initial_witness :
    summary (reset (observeSeq counter50 [(1, (0, 10)), (1, (0, 60))])) =
      (0, 0, 0) ∧
    (runTrace (reset (observeSeq counter50 [(1, (0, 10)), (1, (0, 60))]))
      [(1, (0, 10)), (1, (0, 60))]).2 = [(1, Crossing.ENTRY)] := by
  have h := reset_restores_initial
    (observeSeq counter50 [(1, (0, 10)), (1, (0, 60))]) 1
    (by decide) (by decide)
  exact ⟨h.1, h.2.2.2⟩

/-- Claim C10: the emitted events and both counters depend only on track
ids and y-coordinates — two observation sequences from the same state that
agree on every id and y-coordinate (x arbitrary) produce the same events and
the same counters after every step. -/
theorem x_coordinate_irrelevance (s : CounterState)
    (obs1 obs2 : List (ℕ × ℤ × ℤ))
    (hagree : obs1.map (fun o => (o.1, o.2.2)) =
      obs2.map (fun o => (o.1, o.2.2))) :
    ∀ n : ℕ,
      (runTrace s (obs1.take n)).2 = (runTrace s (obs2.take n)).2 ∧
      (runTrace s (obs1.take n)).1.entry_count =
        (runTrace s (obs2.take n)).1.entry_count ∧
      (runTrace s (obs1.take n)).1.exit_count =
        (runTrace s (obs2.take n)).1.exit_count := by
  intro n
  have htake : (obs1.take n).map (fun o => (o.1, o.2.2)) =
      (obs2.take n).map (fun o => (o.1, o.2.2)) := by
    rw [List.map_take, List.map_take, hagree]
  obtain ⟨hev, hv⟩ := runTrace_yView_congr (obs1.take n) (obs2.take n) s s
    rfl htake
  exact ⟨hev, congrArg (fun v => v.2.1) hv, congrArg (fun v => v.2.2.1) hv⟩

/-- Witness for C10: two two-step runs for track 1 with identical y-values
10 then 60 but different x-values produce the same events and the same
entry count. -/
theorem x_coordinate_irrelevance_witness :
    (runTrace counter50 [(1, (5, 10)), (1, (99, 60))]).2 =
      (runTrace counter50 [(1, (0, 10)), (1, (-7, 60))]).2 ∧
    (runTrace counter50 [(1, (5, 10)), (1, (99, 60))]).1.entry_count =
      (runTrace counter50 [(1, (0, 10)), (1, (-7, 60))]).1.entry_count := by
  have h := x_coordinate_irrelevance counter50 [(1, (5, 10)), (1, (99, 60))]
    [(1, (0, 10)), (1, (-7, 60))] (by decide) 2
  exact ⟨h.1, h.2.1⟩
